import Mathlib

/-!
Verification of the sector-weight portfolio rule checker
(`StockOptimizer`, module with `connected_components_from_adj` and
`check_portfolio_rules`).

The Python source is shallowly embedded below.  Numpy/pandas float
arithmetic is modelled over `ℚ` (ideal real arithmetic): every
arithmetic step of the source (normalization, sums, comparisons and
rounding) is translated term by term.  One caveat of the `ℚ` model:
dividing by a zero total yields `0` in `ℚ` while numpy produces
NaN values (and no exception); theorems about report field values
therefore assume a nonzero weight total, while theorems that only
concern whether a call raises do not need that assumption, because
numpy raises no exception on division by zero either.

A Python `dict` is modelled as an association list with distinct keys
(`List (String × ℚ)`); message strings of the report are pure display
formatting and are not modelled (no claim concerns them).  The wall
clock timestamp read by the source is an ambient input and is passed
as an explicit `ts` argument.  The only exceptions the source can
raise are `ValueError`s: from `np.argmax` on an empty array and from
`list.index` on a missing element.
-/

/-- Severity tags used by the checker (OK, ADVISORY, SOFT_WARNING,
HARD_VIOLATION for graded rules, ANALYZED for the informational rule 2). -/
inductive Status where
  | OK
  | ADVISORY
  | SOFT_WARNING
  | HARD_VIOLATION
  | ANALYZED
deriving DecidableEq, BEq, Repr

/-- The only exception kind the source can raise. -/
inductive PyError where
  | valueError (msg : String)
deriving DecidableEq, Repr

/-- Python dict of sector name to raw weight. -/
abbrev PyDict := List (String × ℚ)

/-- Python `d[s]`: value of the first matching key.  Keys of a Python
dict are distinct, so first-match is exact; the default is never
reached when `s` is drawn from the keys of `d`. -/
def dictLookupD (d : PyDict) (s : String) : ℚ :=
  (((d.find? (fun p => p.1 == s)).map Prod.snd).getD 0)

/-- The list `[sector_weights[s] for s in sectors]` built by the source
from the dict and its key list. -/
def pyValues (d : PyDict) : List ℚ :=
  (d.map Prod.fst).map (fun s => dictLookupD d s)

/-- Step 0 of the evaluator: `weights = weights / weights.sum() * 100`. -/
def normalizeWeights (raw : List ℚ) : List ℚ :=
  raw.map (fun w => w / raw.sum * 100)

/-- Python `list.index`: first index of an equal element, `ValueError`
when the element is absent. -/
def pyIndex (l : List String) (s : String) : Except PyError ℕ :=
  match l.findIdx? (fun t => t == s) with
  | some i => .ok i
  | none => .error (.valueError (s ++ " is not in list"))

/-- Numpy `np.argmax`: first index attaining the maximum; `ValueError`
on an empty array. -/
def pyArgmax (l : List ℚ) : Except PyError ℕ :=
  if l.isEmpty then .error (.valueError "attempt to get argmax of an empty sequence")
  else .ok (l.findIdx (fun x => l.all (fun y => decide (y ≤ x))))

/-- The fixed high-correlation table of the source (five pairs, each
with coefficient 0.7). -/
def high_corr_pairs : List (String × String) :=
  [("Information Technology", "Communication Services"),
   ("Energy", "Materials"),
   ("Consumer Staples", "Health Care"),
   ("Industrials", "Financials"),
   ("Consumer Discretionary", "Communication Services")]

/-- The loop `for s1, s2 in high_corr_pairs: i = sectors.index(s1); j =
sectors.index(s2)`: resolves each pair of the table to a pair of
positions in the sector list, propagating the first `ValueError`. -/
def resolvePairs (sectors : List String) : List (String × String) → Except PyError (List (ℕ × ℕ))
  | [] => .ok []
  | p :: ps =>
    match pyIndex sectors p.1 with
    | .error e => .error e
    | .ok i =>
      match pyIndex sectors p.2 with
      | .error e => .error e
      | .ok j =>
        match resolvePairs sectors ps with
        | .error e => .error e
        | .ok rest => .ok ((i, j) :: rest)

/-- The correlation matrix `np.identity(n)` with `corr[i,j] = corr[j,i]
= 0.7` for every resolved pair: entry as a function of the two indices.
Resolved pairs always have distinct indices (the two names of a table
pair differ), so the diagonal stays 1. -/
def corrOf (rp : List (ℕ × ℕ)) (i j : ℕ) : ℚ :=
  if i = j then 1
  else if rp.any (fun q => (q.1 == i && q.2 == j) || (q.1 == j && q.2 == i)) then 7/10
  else 0

/-- The adjacency `adj = (corr_matrix > 0.6)` with the diagonal zeroed
by `np.fill_diagonal`. -/
def adjOf (rp : List (ℕ × ℕ)) (i j : ℕ) : Bool :=
  (!(i == j)) && decide ((6 : ℚ)/10 < corrOf rp i j)

/-- Helper for the termination of the stack loop: pushing the
not-yet-visited neighbours shrinks `2 * |unvisited| + |stack|`. -/
theorem dfs_measure_lt (adjB : ℕ → ℕ → Bool) (n u : ℕ) (visited : Finset ℕ) (rest : List ℕ) :
    2 * ((Finset.range n) \ (visited ∪ ((List.range n).filter (fun v => adjB u v && decide (v ∉ visited))).toFinset)).card
      + ((((List.range n).filter (fun v => adjB u v && decide (v ∉ visited))).reverse ++ rest).length)
    < 2 * ((Finset.range n) \ visited).card + (u :: rest).length := by
  have hnd : ((List.range n).filter (fun v => adjB u v && decide (v ∉ visited))).Nodup :=
    List.Nodup.filter _ (List.nodup_range n)
  have hsub : ((List.range n).filter (fun v => adjB u v && decide (v ∉ visited))).toFinset
      ⊆ (Finset.range n) \ visited := by
    intro v hv
    simp only [List.mem_toFinset, List.mem_filter, List.mem_range, Bool.and_eq_true,
      decide_eq_true_eq] at hv
    simp only [Finset.mem_sdiff, Finset.mem_range]
    exact ⟨hv.1, hv.2.2⟩
  have h1 : (Finset.range n) \ (visited ∪ ((List.range n).filter (fun v => adjB u v && decide (v ∉ visited))).toFinset)
      = ((Finset.range n) \ visited) \ ((List.range n).filter (fun v => adjB u v && decide (v ∉ visited))).toFinset := by
    ext x
    simp only [Finset.mem_sdiff, Finset.mem_union]
    tauto
  rw [h1, Finset.card_sdiff hsub, List.toFinset_card_of_nodup hnd]
  have h4 : ((List.range n).filter (fun v => adjB u v && decide (v ∉ visited))).length
      ≤ ((Finset.range n) \ visited).card := by
    rw [← List.toFinset_card_of_nodup hnd]
    exact Finset.card_le_card hsub
  simp only [List.length_append, List.length_reverse, List.length_cons]
  omega

/-- The inner `while stack:` loop of `connected_components_from_adj`:
pop `u`, append it to the component, mark and push every unvisited
neighbour of `u` (in increasing index order; the Lean list head is the
Python stack top, so the pushed block appears reversed). -/
def dfsLoop (adjB : ℕ → ℕ → Bool) (n : ℕ) (stack : List ℕ) (visited : Finset ℕ) (comp : List ℕ) :
    List ℕ × Finset ℕ :=
  match stack with
  | [] => (comp, visited)
  | u :: rest =>
    let nbrs := (List.range n).filter (fun v => adjB u v && decide (v ∉ visited))
    dfsLoop adjB n (nbrs.reverse ++ rest) (visited ∪ nbrs.toFinset) (comp ++ [u])
termination_by 2 * ((Finset.range n) \ visited).card + stack.length
decreasing_by
  exact dfs_measure_lt adjB n u visited rest

/-- The outer `for i in range(n):` loop: start a fresh stack search from
every not-yet-visited node, accumulating components in discovery order. -/
def ccLoop (adjB : ℕ → ℕ → Bool) (n : ℕ) : List ℕ → Finset ℕ → List (List ℕ) → List (List ℕ) × Finset ℕ
  | [], visited, comps => (comps, visited)
  | i :: rest, visited, comps =>
    if i ∈ visited then ccLoop adjB n rest visited comps
    else
      let p := dfsLoop adjB n [i] (insert i visited) []
      ccLoop adjB n rest p.2 (comps ++ [p.1])

/-- Connected components of the adjacency relation on `n` nodes,
exactly as the source computes them (iterative stack search). -/
def connected_components_from_adj (adjB : ℕ → ℕ → Bool) (n : ℕ) : List (List ℕ) :=
  (ccLoop adjB n (List.range n) ∅ []).1

/-- Pandas label selection followed by `.sum()`: for each requested
label, add up the values at every position of the index equal to that
label (with distinct labels this is the single matching value). -/
def seriesSelectSum (idx : List String) (vals : List ℚ) (labels : List String) : ℚ :=
  (labels.map (fun s => ((((idx.zip vals).filter (fun p => p.1 == s)).map Prod.snd).sum))).sum

/-- Python banker rounding of a rational to an integer (round-half-even,
the behaviour of `round` on exactly representable halves). -/
def roundHE (x : ℚ) : ℤ :=
  let f := Int.floor x
  let frac := x - f
  if frac < 1/2 then f
  else if 1/2 < frac then f + 1
  else if f % 2 = 0 then f else f + 1

/-- Python `round(x, d)` on the ideal rational value. -/
def roundTo (d : ℕ) (x : ℚ) : ℚ := ((roundHE (x * (10 ^ d : ℚ)) : ℚ)) / (10 ^ d : ℚ)

/-- Rule 1 classifier: `>40` HARD_VIOLATION, `>30` SOFT_WARNING, else OK. -/
def rule1_status (v : ℚ) : Status :=
  if 40 < v then .HARD_VIOLATION else if 30 < v then .SOFT_WARNING else .OK

/-- Rule 3 classifier: `<5` HARD_VIOLATION, `<10` SOFT_WARNING, else OK. -/
def rule3_status (v : ℚ) : Status :=
  if v < 5 then .HARD_VIOLATION else if v < 10 then .SOFT_WARNING else .OK

/-- Rule 4 classifier: `>20` HARD_VIOLATION, `>15` SOFT_WARNING, else OK. -/
def rule4_status (v : ℚ) : Status :=
  if 20 < v then .HARD_VIOLATION else if 15 < v then .SOFT_WARNING else .OK

/-- Rule 5 classifier: `>25` HARD_VIOLATION, `>20` SOFT_WARNING, `>15`
ADVISORY, else OK. -/
def rule5_status (v : ℚ) : Status :=
  if 25 < v then .HARD_VIOLATION
  else if 20 < v then .SOFT_WARNING
  else if 15 < v then .ADVISORY
  else .OK

/-- Severity of the cluster-level violation entry of rule 2 for a
cluster weight: `>60` a HARD_VIOLATION entry, `>50` a SOFT_WARNING
entry, otherwise no entry. -/
def vioStatusOf (w : ℚ) : Option Status :=
  if 60 < w then some .HARD_VIOLATION
  else if 50 < w then some .SOFT_WARNING
  else none

/-- One entry of the `components` breakdown of rule 2. -/
structure CompInfo where
  members : List String
  weight_sum : ℚ
  avg_corr : ℚ
deriving DecidableEq, Repr

/-- One entry of the `violations` sub-list of rule 2. -/
structure CorrViolation where
  status : Status
  members : List String
  weight_sum : ℚ
  avg_corr : ℚ
deriving DecidableEq, Repr

/-- One element of `report['checks']`.  The Python dicts are
heterogeneous; fields a rule does not set are `none` or `[]` here. -/
structure Check where
  rule : ℕ
  status : Status
  sector : Option String := none
  value : Option ℚ := none
  components : List CompInfo := []
  violations : List CorrViolation := []
deriving DecidableEq, Repr

instance : Inhabited Check := ⟨{ rule := 0, status := .OK }⟩

/-- The `report['summary']` block. -/
structure Summary where
  hard_violations_count : ℕ
  soft_warnings_count : ℕ
  hard_violations : List Check
  soft_warnings : List Check
deriving DecidableEq, Repr

/-- The full report value returned by the evaluator. -/
structure Report where
  timestamp : String
  input_weights : List (String × ℚ)
  checks : List Check
  summary : Summary
deriving DecidableEq, Repr

/-- The data printed by the verbose trace: total sector count, rounded
total of the normalized weights, and each rule number with its status
(the free-text part of each printed line is display formatting). -/
structure TraceData where
  total_sectors : ℕ
  total_weight_sum : ℚ
  rule_status_lines : List (ℕ × Status)
deriving DecidableEq, Repr

/-- The summary block: scan of the top-level check statuses only. -/
def mkSummary (checks : List Check) : Summary :=
  let hard := checks.filter (fun c => c.status == Status.HARD_VIOLATION)
  let soft := checks.filter (fun c => c.status == Status.SOFT_WARNING)
  { hard_violations_count := hard.length
    soft_warnings_count := soft.length
    hard_violations := hard
    soft_warnings := soft }

/-- Weight of a cluster: pandas selection of the member names from the
normalized series, summed. -/
def compWeight (sectors : List String) (weights : List ℚ) (comp : List ℕ) : ℚ :=
  seriesSelectSum sectors weights (comp.map (fun i => sectors.getD i ""))

/-- The strict upper-triangle position pairs of a component, in the
order `np.triu_indices` enumerates them. -/
def upperPairs : List ℕ → List (ℕ × ℕ)
  | [] => []
  | x :: xs => (xs.map (fun y => (x, y))) ++ upperPairs xs

/-- Average pairwise correlation of a cluster, with the documented
convention of 1.0 for singleton clusters. -/
def avgCorr (corrM : ℕ → ℕ → ℚ) (comp : List ℕ) : ℚ :=
  if 1 < comp.length then
    ((upperPairs comp).map (fun p => corrM p.1 p.2)).sum / ((upperPairs comp).length : ℚ)
  else 1

/-- The `comp_infos` entry of one cluster. -/
def compInfoOf (sectors : List String) (weights : List ℚ) (corrM : ℕ → ℕ → ℚ) (comp : List ℕ) : CompInfo :=
  { members := comp.map (fun i => sectors.getD i "")
    weight_sum := roundTo 2 (compWeight sectors weights comp)
    avg_corr := roundTo 3 (avgCorr corrM comp) }

/-- The optional `corr_violations` entry of one cluster. -/
def vioOf (sectors : List String) (weights : List ℚ) (corrM : ℕ → ℕ → ℚ) (comp : List ℕ) : Option CorrViolation :=
  match vioStatusOf (compWeight sectors weights comp) with
  | some st =>
    some { status := st
           members := comp.map (fun i => sectors.getD i "")
           weight_sum := roundTo 2 (compWeight sectors weights comp)
           avg_corr := roundTo 3 (avgCorr corrM comp) }
  | none => none

/-- The defensive sector list of rule 3. -/
def defensive : List String := ["Consumer Staples", "Health Care", "Utilities"]

/-- Python `'Real Estate' in s`: substring containment. -/
def strContains (s pat : String) : Bool :=
  (List.range (s.toList.length + 1)).any (fun k => pat.toList.isPrefixOf (s.toList.drop k))

/-- The evaluator body on the extracted key and value lists: Step 0
normalization, the five rule checks in order, and the summary.  Errors
(`np.argmax` on an empty array, `list.index` on a missing pair sector)
propagate exactly where the source raises them; everything after a
raise is discarded, so the partially built report is not modelled. -/
def checkFromLists (sectors : List String) (raw : List ℚ) (ts : String) : Except PyError Report :=
  let weights := normalizeWeights raw
  match pyArgmax weights with
  | .error e => .error e
  | .ok maxIdx =>
    match resolvePairs sectors high_corr_pairs with
    | .error e => .error e
    | .ok rp =>
      let n := sectors.length
      let corrM := corrOf rp
      let comps := connected_components_from_adj (adjOf rp) n
      let maxSector := sectors.getD maxIdx ""
      let maxW := weights.getD maxIdx 0
      let chk1 : Check :=
        { rule := 1, status := rule1_status maxW, sector := some maxSector
          value := some (roundTo 2 maxW) }
      let chk2 : Check :=
        { rule := 2, status := .ANALYZED
          components := comps.map (fun c => compInfoOf sectors weights corrM c)
          violations := comps.filterMap (fun c => vioOf sectors weights corrM c) }
      let dsum := seriesSelectSum sectors weights (defensive.filter (fun s => sectors.contains s))
      let chk3 : Check := { rule := 3, status := rule3_status dsum, value := some (roundTo 2 dsum) }
      let reits := sectors.filter (fun s => strContains s "Real Estate")
      let rsum := if reits.isEmpty then 0 else seriesSelectSum sectors weights reits
      let chk4 : Check := { rule := 4, status := rule4_status rsum, value := some (roundTo 2 rsum) }
      let em := (["Energy", "Materials"].filter (fun s => sectors.contains s))
      let esum := if em.isEmpty then 0 else seriesSelectSum sectors weights em
      let chk5 : Check := { rule := 5, status := rule5_status esum, value := some (roundTo 2 esum) }
      let checks := [chk1, chk2, chk3, chk4, chk5]
      .ok { timestamp := ts
            input_weights := sectors.zip weights
            checks := checks
            summary := mkSummary checks }

/-- The verbose trace assembled from the data the source prints. -/
def mkTraceL (sectors : List String) (raw : List ℚ) (r : Report) : TraceData :=
  { total_sectors := sectors.length
    total_weight_sum := roundTo 2 (normalizeWeights raw).sum
    rule_status_lines := r.checks.map (fun c => (c.rule, c.status)) }

/-- The evaluator on key and value lists together with the optional
verbose diagnostic output (printing has no other effect). -/
def checkWithVerbose (sectors : List String) (raw : List ℚ) (ts : String) (verbose : Bool) :
    Except PyError (Report × Option TraceData) :=
  match checkFromLists sectors raw ts with
  | .error e => .error e
  | .ok r => .ok (r, if verbose then some (mkTraceL sectors raw r) else none)

/-- The entry point `check_portfolio_rules(sector_weights, verbose)`:
keys are listed, values are read from the dict per key, and the pure
pipeline runs on those copies. -/
def check_portfolio_rules (sector_weights : PyDict) (ts : String) (verbose : Bool) :
    Except PyError (Report × Option TraceData) :=
  checkWithVerbose (sector_weights.map Prod.fst) (pyValues sector_weights) ts verbose

/-- Dict read operation returning the value and the dict (a read does
not modify a Python dict). -/
def dictGet (d : PyDict) (s : String) : ℚ × PyDict := (dictLookupD d s, d)

/-- The list comprehension `[sector_weights[s] for s in sectors]` as a
sequence of explicit read operations threading the dict state. -/
def readAll : PyDict → List String → List ℚ × PyDict
  | d, [] => ([], d)
  | d, s :: ss =>
    let p := dictGet d s
    let rest := readAll p.2 ss
    (p.1 :: rest.1, rest.2)

/-- The entry point with the dict threaded as explicit state: every
access the source performs on the caller mapping is a read, and the
final dict state is returned alongside the result. -/
def check_portfolio_rules_state (d : PyDict) (ts : String) (verbose : Bool) :
    Except PyError (Report × Option TraceData) × PyDict :=
  let sectors := d.map Prod.fst
  let rd := readAll d sectors
  (checkWithVerbose sectors rd.1 ts verbose, rd.2)

/-- Extract the report of a successful evaluation. -/
def resReport : Except PyError (Report × Option TraceData) → Option Report
  | .ok p => some p.1
  | .error _ => none

/-- Whether a result is a raised error. -/
def isErrB {α : Type} : Except PyError α → Bool
  | .error _ => true
  | .ok _ => false

/-- Report part of the result, trace dropped. -/
def reportPart : Except PyError (Report × Option TraceData) → Except PyError Report
  | .ok p => .ok p.1
  | .error e => .error e

/-- Status of the first (rule 1) finding of a successful evaluation. -/
def firstCheckStatus (res : Except PyError (Report × Option TraceData)) : Option Status :=
  (resReport res).map (fun r => (r.checks.getD 0 default).status)

/-! ### Shared lemmas about normalization -/

/-- Each entry of the normalized series is the corresponding raw entry
divided by the raw total, times 100. -/
theorem normalizeWeights_getD (raw : List ℚ) (i : ℕ) (hi : i < raw.length) :
    (normalizeWeights raw).getD i 0 = raw.getD i 0 / raw.sum * 100 := by
  have hlen : i < (normalizeWeights raw).length := by
    simpa [normalizeWeights] using hi
  rw [List.getD_eq_getElem _ _ hlen, List.getD_eq_getElem _ _ hi]
  simp [normalizeWeights]

/-- When the raw total is nonzero the normalized series sums to exactly 100. -/
theorem normalizeWeights_sum (raw : List ℚ) (hs : raw.sum ≠ 0) :
    (normalizeWeights raw).sum = 100 := by
  unfold normalizeWeights
  have h1 : raw.map (fun w => w / raw.sum * 100) = raw.map (fun w => w * (100 / raw.sum)) := by
    refine List.map_congr_left (fun a _ => ?_)
    field_simp
  rw [h1]
  have h2 : (raw.map (fun w => w * (100 / raw.sum))).sum = (raw.map (fun w => w)).sum * (100 / raw.sum) :=
    List.sum_map_mul_right raw (fun w => w) _
  rw [h2, List.map_id', mul_comm, div_mul_cancel₀ _ hs]

/-- Normalization is the identity on a series that already sums to 100. -/
theorem normalizeWeights_id (raw : List ℚ) (h : raw.sum = 100) :
    normalizeWeights raw = raw := by
  unfold normalizeWeights
  rw [h]
  rw [List.map_congr_left (fun a _ => div_mul_cancel₀ a (by norm_num : (100:ℚ) ≠ 0))]
  exact List.map_id' raw

/-- C3: for a non-empty all-positive input series, the normalized
series sums to 100 (hence is within 1e-6 of 100), every normalized
entry is non-negative, and the ordering of positions by weight agrees
with the ordering of the raw input weights. -/
theorem normalization_properties (raw : List ℚ) (hne : raw ≠ []) (hpos : ∀ w ∈ raw, 0 < w) :
    (normalizeWeights raw).sum = 100 ∧
    |(normalizeWeights raw).sum - 100| < 1/1000000 ∧
    (∀ x ∈ normalizeWeights raw, 0 ≤ x) ∧
    (∀ i j : ℕ, i < raw.length → j < raw.length →
      (raw.getD i 0 ≤ raw.getD j 0 ↔ (normalizeWeights raw).getD i 0 ≤ (normalizeWeights raw).getD j 0)) := by
  have hs : 0 < raw.sum := List.sum_pos raw hpos hne
  have hsum : (normalizeWeights raw).sum = 100 := normalizeWeights_sum raw hs.ne'
  refine ⟨hsum, by rw [hsum]; norm_num, ?_, ?_⟩
  · intro x hx
    obtain ⟨w, hw, rfl⟩ := List.mem_map.mp hx
    have hwpos := hpos w hw
    exact le_of_lt (mul_pos (div_pos hwpos hs) (by norm_num))
  · intro i j hi hj
    rw [normalizeWeights_getD raw i hi, normalizeWeights_getD raw j hj]
    rw [div_mul_eq_mul_div, div_mul_eq_mul_div, div_le_div_iff_of_pos_right hs]
    exact (mul_le_mul_right (by norm_num)).symm

/-- Witness for C3 at the concrete series `[1, 2]`. -/
theorem normalization_properties_witness :
    (([1, 2] : List ℚ) ≠ [] ∧ (∀ w ∈ ([1, 2] : List ℚ), 0 < w)) ∧
    ((normalizeWeights [1, 2]).sum = 100 ∧
     |(normalizeWeights [1, 2]).sum - 100| < 1/1000000 ∧
     (∀ x ∈ normalizeWeights [1, 2], 0 ≤ x) ∧
     (∀ i j : ℕ, i < ([1, 2] : List ℚ).length → j < ([1, 2] : List ℚ).length →
       (([1, 2] : List ℚ).getD i 0 ≤ ([1, 2] : List ℚ).getD j 0 ↔
         (normalizeWeights [1, 2]).getD i 0 ≤ (normalizeWeights [1, 2]).getD j 0))) :=
  ⟨⟨by decide, by decide⟩, normalization_properties [1, 2] (by decide) (by decide)⟩

/-- C8 (amended): in exact arithmetic, normalization is a fixed point
on an already-normalized input: a raw series summing to 100 is
returned unchanged by Step 0, since each entry maps to `w / 100 * 100`.
Under the IEEE binary64 arithmetic the program actually performs, the
identity can fail by one unit in the last place, so it holds only up
to rounding error: see the counterexample on the doubles of 0.007 and
99.993, whose float sum is exactly 100. -/
theorem normalization_fixed_point (raw : List ℚ) (h : raw.sum = 100) :
    normalizeWeights raw = raw :=
  normalizeWeights_id raw h

/-- Witness for C8 at the concrete series `[40, 60]`. -/
theorem normalization_fixed_point_witness :
    ([40, 60] : List ℚ).sum = 100 ∧ normalizeWeights [40, 60] = [40, 60] :=
  ⟨by norm_num, normalization_fixed_point [40, 60] (by norm_num)⟩

/-- C9: the verbose flag has no effect on the returned report: two
evaluations of the same input (and the same clock reading) with
different verbosity agree on everything except the diagnostic trace. -/
theorem verbose_no_effect (sw : PyDict) (ts : String) (v1 v2 : Bool) :
    reportPart (check_portfolio_rules sw ts v1) = reportPart (check_portfolio_rules sw ts v2) := by
  unfold check_portfolio_rules checkWithVerbose
  cases h : checkFromLists (sw.map Prod.fst) (pyValues sw) ts <;> simp [reportPart]

/-- Reading every key in order returns the per-key values and leaves
the dict state unchanged. -/
theorem readAll_eq (d : PyDict) (l : List String) :
    readAll d l = (l.map (fun s => dictLookupD d s), d) := by
  induction l with
  | nil => rfl
  | cons s ss ih => simp [readAll, dictGet, ih]

/-- C10: the evaluator leaves the caller mapping unchanged: with the
dict threaded as explicit state through every read the source performs,
the final dict equals the initial one, and the computed result is the
one of the pure evaluator. -/
theorem caller_dict_unchanged (d : PyDict) (ts : String) (vb : Bool) :
    (check_portfolio_rules_state d ts vb).2 = d ∧
    (check_portfolio_rules_state d ts vb).1 = check_portfolio_rules d ts vb := by
  unfold check_portfolio_rules_state check_portfolio_rules
  constructor
  · simp [readAll_eq]
  · simp [readAll_eq, pyValues]

/-! ### Shared lemmas about the raised errors -/

/-- Python `list.index` raises exactly when the element is absent. -/
theorem pyIndex_isErr (l : List String) (s : String) :
    isErrB (pyIndex l s) = true ↔ s ∉ l := by
  have h1 : isErrB (pyIndex l s) = true ↔ l.findIdx? (fun t => t == s) = none := by
    unfold pyIndex
    cases h : l.findIdx? (fun t => t == s) <;> simp [isErrB, h]
  rw [h1, List.findIdx?_eq_none_iff]
  constructor
  · intro hall hmem
    have := hall s hmem
    simp at this
  · intro hnm x hx
    simp only [beq_eq_false_iff_ne, ne_eq]
    intro hxs
    exact hnm (hxs ▸ hx)

/-- The pair-resolution loop raises exactly when some pair of the table
names a sector absent from the portfolio. -/
theorem resolvePairs_isErr (sectors : List String) (ps : List (String × String)) :
    isErrB (resolvePairs sectors ps) = true ↔
      ∃ p ∈ ps, p.1 ∉ sectors ∨ p.2 ∉ sectors := by
  induction ps with
  | nil => simp [resolvePairs, isErrB]
  | cons p ps ih =>
    cases he1 : pyIndex sectors p.1 with
    | error e =>
      have h1 : p.1 ∉ sectors := (pyIndex_isErr sectors p.1).mp (by simp [isErrB, he1])
      simp only [resolvePairs, he1, isErrB]
      constructor
      · intro _
        exact ⟨p, List.mem_cons_self p ps, Or.inl h1⟩
      · intro _
        trivial
    | ok i =>
      have h1 : p.1 ∈ sectors := by
        by_contra hc
        have hh := (pyIndex_isErr sectors p.1).mpr hc
        rw [he1] at hh
        simp [isErrB] at hh
      cases he2 : pyIndex sectors p.2 with
      | error e =>
        have h2 : p.2 ∉ sectors := (pyIndex_isErr sectors p.2).mp (by simp [isErrB, he2])
        simp only [resolvePairs, he1, he2, isErrB]
        constructor
        · intro _
          exact ⟨p, List.mem_cons_self p ps, Or.inr h2⟩
        · intro _
          trivial
      | ok j =>
        have h2 : p.2 ∈ sectors := by
          by_contra hc
          have hh := (pyIndex_isErr sectors p.2).mpr hc
          rw [he2] at hh
          simp [isErrB] at hh
        cases he3 : resolvePairs sectors ps with
        | error e =>
          have hrec : isErrB (resolvePairs sectors ps) = true := by simp [isErrB, he3]
          simp only [resolvePairs, he1, he2, he3, isErrB]
          constructor
          · intro _
            obtain ⟨q, hq, hor⟩ := ih.mp hrec
            exact ⟨q, List.mem_cons_of_mem p hq, hor⟩
          · intro _
            trivial
        | ok rest =>
          have hrec : isErrB (resolvePairs sectors ps) = false := by simp [isErrB, he3]
          simp only [resolvePairs, he1, he2, he3, isErrB]
          constructor
          · intro hc
            exact absurd hc (by simp)
          · rintro ⟨q, hq, hor⟩
            rcases List.mem_cons.mp hq with rfl | hq2
            · rcases hor with hmiss | hmiss
              · exact absurd h1 hmiss
              · exact absurd h2 hmiss
            · have hx := ih.mpr ⟨q, hq2, hor⟩
              rw [hrec] at hx
              exact hx

/-- The verbose wrapper raises exactly when the underlying pipeline does. -/
theorem checkWithVerbose_isErr (sectors : List String) (raw : List ℚ) (ts : String) (vb : Bool) :
    isErrB (checkWithVerbose sectors raw ts vb) = isErrB (checkFromLists sectors raw ts) := by
  unfold checkWithVerbose
  cases h : checkFromLists sectors raw ts <;> simp [isErrB]

/-- The pipeline raises exactly on an empty weight array (at the
`np.argmax` of rule 1) or on a missing pair sector (at the
`list.index` calls of rule 2); everything after those points is total. -/
theorem checkFromLists_isErr (sectors : List String) (raw : List ℚ) (ts : String) :
    isErrB (checkFromLists sectors raw ts) = true ↔
      (raw = [] ∨ isErrB (resolvePairs sectors high_corr_pairs) = true) := by
  unfold checkFromLists
  cases ha : pyArgmax (normalizeWeights raw) with
  | error e =>
    have hraw : raw = [] := by
      unfold pyArgmax at ha
      by_cases h : (normalizeWeights raw).isEmpty
      · simpa [normalizeWeights] using h
      · simp [h] at ha
    subst hraw
    simp [pyArgmax, normalizeWeights, isErrB]
  | ok maxIdx =>
    have hraw : raw ≠ [] := by
      intro hc
      subst hc
      simp [pyArgmax, normalizeWeights] at ha
    cases hr : resolvePairs sectors high_corr_pairs with
    | error e => simp [isErrB, ha, hr, hraw]
    | ok rp => simp [isErrB, ha, hr, hraw]

/-- The evaluator raises exactly when some pair of the fixed
correlation table names a sector absent from the input keys (the empty
mapping is such a case). -/
theorem check_isErr_iff (sw : PyDict) (ts : String) (vb : Bool) :
    isErrB (check_portfolio_rules sw ts vb) = true ↔
      ∃ p ∈ high_corr_pairs, p.1 ∉ sw.map Prod.fst ∨ p.2 ∉ sw.map Prod.fst := by
  unfold check_portfolio_rules
  rw [checkWithVerbose_isErr, checkFromLists_isErr, resolvePairs_isErr]
  constructor
  · rintro (h | h)
    · have hsw : sw = [] := by
        simpa [pyValues] using h
      subst hsw
      exact ⟨("Information Technology", "Communication Services"), by decide, Or.inl (by simp)⟩
    · exact h
  · intro h
    exact Or.inr h

/-- Concrete portfolio used as the C1 counterexample: all table pair
sectors present, one weight negative, raw total 100. -/
def inpNeg : PyDict :=
  [("Information Technology", 50), ("Communication Services", 10), ("Energy", 10),
   ("Materials", 10), ("Consumer Staples", 10), ("Health Care", 10),
   ("Industrials", 5), ("Financials", 5), ("Consumer Discretionary", -10)]

/-- C1 counterexample: a weight mapping containing a negative value is
not rejected: the evaluation raises nothing (in particular no
InputError) and returns a full report. -/
theorem input_error_counterexample :
    (∃ p ∈ inpNeg, p.2 < 0) ∧
    isErrB (check_portfolio_rules inpNeg "t" false) = false := by
  constructor
  · exact ⟨("Consumer Discretionary", -10), by decide, by decide⟩
  · have h := check_isErr_iff inpNeg "t" false
    have hr : ¬ ∃ p ∈ high_corr_pairs,
        p.1 ∉ inpNeg.map Prod.fst ∨ p.2 ∉ inpNeg.map Prod.fst := by decide
    rw [← Bool.not_eq_true]
    intro hc
    exact hr (h.mp hc)

/-- C1 (amended): the evaluator performs no input validation and no
InputError exists: the only raised failures are `ValueError`s, raised
exactly when some correlation-table pair names a sector absent from
the input keys; a mapping with a negative weight or zero total is not
rejected, and the empty mapping fails only at the `np.argmax` of
rule 1 (after normalization has run), not before any rule. -/
theorem input_error_never_raised (sw : PyDict) (ts : String) (vb : Bool) :
    (isErrB (check_portfolio_rules sw ts vb) = true ↔
      ∃ p ∈ high_corr_pairs, p.1 ∉ sw.map Prod.fst ∨ p.2 ∉ sw.map Prod.fst) ∧
    check_portfolio_rules [] ts vb =
      .error (.valueError "attempt to get argmax of an empty sequence") :=
  ⟨check_isErr_iff sw ts vb, rfl⟩

/-- C2 counterexample: a portfolio containing the Energy and Materials
pair but missing the other table sectors is not evaluated with the
absent pairs ignored: the call raises instead of producing a report. -/
theorem absent_pair_counterexample :
    isErrB (check_portfolio_rules [("Energy", 50), ("Materials", 50)] "t" false) = true := by
  refine (check_isErr_iff _ "t" false).mpr ?_
  exact ⟨("Information Technology", "Communication Services"), by decide, Or.inl (by decide)⟩

/-- C2 (amended): a correlation-table pair naming a sector absent from
the portfolio is not silently ignored: the evaluation fails with a
raised error (the `ValueError` of `list.index`) and produces no report. -/
theorem absent_pair_sector_raises (sw : PyDict) (ts : String) (vb : Bool)
    (h : ∃ p ∈ high_corr_pairs, p.1 ∉ sw.map Prod.fst ∨ p.2 ∉ sw.map Prod.fst) :
    ∃ e, check_portfolio_rules sw ts vb = .error e := by
  have hb := (check_isErr_iff sw ts vb).mpr h
  cases hc : check_portfolio_rules sw ts vb with
  | error e => exact ⟨e, rfl⟩
  | ok p =>
    rw [hc] at hb
    simp [isErrB] at hb

/-- Witness for C2 at the concrete portfolio with only Utilities. -/
theorem absent_pair_sector_raises_witness :
    (∃ p ∈ high_corr_pairs,
      p.1 ∉ ([("Utilities", (100:ℚ))] : PyDict).map Prod.fst ∨
      p.2 ∉ ([("Utilities", (100:ℚ))] : PyDict).map Prod.fst) ∧
    ∃ e, check_portfolio_rules [("Utilities", 100)] "t" false = .error e :=
  ⟨by decide, absent_pair_sector_raises [("Utilities", 100)] "t" false (by decide)⟩

/-- C7 counterexample: the single-sector portfolio Energy = 100 yields
no report at all, so no finding of any rule is produced for it. -/
theorem single_energy_no_report :
    resReport (check_portfolio_rules [("Energy", 100)] "t" false) = none := rfl

/-- C7 (amended): on the single-sector input Energy = 100 the
evaluator does not return a report: rule 2 setup raises the
`list.index` `ValueError` for the absent sector Information
Technology. -/
theorem single_energy_raises :
    check_portfolio_rules [("Energy", 100)] "t" false =
      .error (.valueError "Information Technology is not in list") := rfl

/-- Concrete portfolio whose maximum normalized weight is exactly 40:
all table pair sectors present, weights summing to 100. -/
def inp40 : PyDict :=
  [("Information Technology", 40), ("Communication Services", 10), ("Energy", 5),
   ("Materials", 5), ("Consumer Staples", 10), ("Health Care", 10),
   ("Industrials", 10), ("Financials", 5), ("Consumer Discretionary", 5)]

theorem inp40_values : pyValues inp40 = [40, 10, 5, 5, 10, 10, 10, 5, 5] := rfl

theorem inp40_norm :
    normalizeWeights [40, 10, 5, 5, 10, 10, 10, 5, 5] = [40, 10, 5, 5, 10, 10, 10, 5, 5] :=
  normalizeWeights_id _ (by norm_num)

theorem inp40_argmax :
    pyArgmax [40, 10, 5, 5, 10, 10, 10, 5, 5] = .ok 0 := rfl

theorem inp40_resolve :
    resolvePairs (inp40.map Prod.fst) high_corr_pairs =
      .ok [(0, 1), (2, 3), (4, 5), (6, 7), (8, 1)] := rfl

/-- C4: every threshold comparison of every rule is strict, so a metric
value exactly at a threshold resolves to the next-lower (less severe)
tier; rule 1 classifies to HARD_VIOLATION exactly for values strictly
above 40, a value of exactly 40 gives SOFT_WARNING, and an end-to-end
run whose maximum normalized weight is exactly 40 reports
SOFT_WARNING for rule 1. -/
theorem strict_threshold_boundaries :
    (∀ v : ℚ, rule1_status v = Status.HARD_VIOLATION ↔ 40 < v) ∧
    rule1_status 40 = Status.SOFT_WARNING ∧ rule1_status 30 = Status.OK ∧
    rule3_status 5 = Status.SOFT_WARNING ∧ rule3_status 10 = Status.OK ∧
    rule4_status 20 = Status.SOFT_WARNING ∧ rule4_status 15 = Status.OK ∧
    rule5_status 25 = Status.SOFT_WARNING ∧ rule5_status 20 = Status.ADVISORY ∧
    rule5_status 15 = Status.OK ∧
    vioStatusOf 60 = some Status.SOFT_WARNING ∧ vioStatusOf 50 = none ∧
    firstCheckStatus (check_portfolio_rules inp40 "t" false) = some Status.SOFT_WARNING := by
  refine ⟨?_, by decide, by decide, by decide, by decide, by decide, by decide,
    by decide, by decide, by decide, by decide, by decide, ?_⟩
  · intro v
    unfold rule1_status
    split_ifs with h1 h2 <;> simp [h1]
  · unfold check_portfolio_rules
    rw [inp40_values]
    unfold checkWithVerbose checkFromLists
    rw [inp40_norm]
    simp only [inp40_argmax, inp40_resolve]
    decide

/-- Evaluate a boolean property on the report of a successful run
(vacuously true when the run raised). -/
def optAll (p : Report → Bool) : Option Report → Bool
  | none => true
  | some r => p r

/-- The property of C6 on one report: the rule 2 finding (position 1 of
the checks) has status ANALYZED; the summary counts are exactly the
counts of top-level findings with the matching status; and removing the
rule 2 finding (the only carrier of the nested cluster-level violation
entries) does not change either count. -/
def summaryCountsTopLevel (r : Report) : Bool :=
  ((r.checks.getD 1 default).status == Status.ANALYZED) &&
  (r.summary.hard_violations_count ==
    (r.checks.filter (fun c => c.status == Status.HARD_VIOLATION)).length) &&
  (r.summary.soft_warnings_count ==
    (r.checks.filter (fun c => c.status == Status.SOFT_WARNING)).length) &&
  (r.summary.hard_violations_count ==
    ((r.checks.eraseIdx 1).filter (fun c => c.status == Status.HARD_VIOLATION)).length) &&
  (r.summary.soft_warnings_count ==
    ((r.checks.eraseIdx 1).filter (fun c => c.status == Status.SOFT_WARNING)).length)

/-- Any report made of five checks whose second has status ANALYZED,
with its summary built by the top-level scan, satisfies the C6
property. -/
theorem summary_pred_helper (tsv : String) (iw : List (String × ℚ)) (c1 c2 c3 c4 c5 : Check)
    (hc2 : c2.status = Status.ANALYZED) :
    summaryCountsTopLevel (Report.mk tsv iw [c1, c2, c3, c4, c5] (mkSummary [c1, c2, c3, c4, c5])) = true := by
  simp [summaryCountsTopLevel, mkSummary, List.filter_cons, hc2, List.eraseIdx,
    show (Status.ANALYZED == Status.HARD_VIOLATION) = false from rfl,
    show (Status.ANALYZED == Status.SOFT_WARNING) = false from rfl,
    show (Status.ANALYZED == Status.ANALYZED) = true from rfl]

/-- C6: every produced report has rule 2's top-level status ANALYZED,
its summary counts equal the number of top-level findings with status
HARD_VIOLATION respectively SOFT_WARNING, and the cluster-level entries
nested inside rule 2 are never folded into either count (dropping the
whole rule 2 finding changes neither count). -/
theorem summary_counts_top_level (sw : PyDict) (ts : String) (vb : Bool) :
    optAll summaryCountsTopLevel (resReport (check_portfolio_rules sw ts vb)) = true := by
  unfold check_portfolio_rules checkWithVerbose
  cases h : checkFromLists (sw.map Prod.fst) (pyValues sw) ts with
  | error e => simp [resReport, optAll]
  | ok r =>
    simp only [resReport, optAll]
    unfold checkFromLists at h
    cases ha : pyArgmax (normalizeWeights (pyValues sw)) with
    | error e => simp [ha] at h
    | ok maxIdx =>
      simp only [ha] at h
      cases hr : resolvePairs (sw.map Prod.fst) high_corr_pairs with
      | error e => simp [hr] at h
      | ok rp =>
        simp only [hr] at h
        rw [Except.ok.injEq] at h
        subst h
        apply summary_pred_helper
        rfl

/-! ### Invariants of the stack search -/

/-- Main invariant of the inner stack loop.  With `V0` the set of nodes
visited before this component was started: provided the stack and the
partial component are duplicate-free, mutually disjoint, marked
visited, and disjoint from `V0 ⊆ visited`, the loop returns a
duplicate-free component disjoint from `V0` that absorbs the stack and
the partial component, and the final visited set is the initial one
united with the returned component, staying inside
`visited ∪ range n`. -/
theorem dfsLoop_spec (adjB : ℕ → ℕ → Bool) (n : ℕ) (V0 : Finset ℕ) :
    ∀ (stack : List ℕ) (visited : Finset ℕ) (comp : List ℕ),
      (stack.Nodup ∧ comp.Nodup ∧ (∀ x ∈ comp, x ∉ stack) ∧
       (∀ x ∈ stack, x ∈ visited) ∧ (∀ x ∈ comp, x ∈ visited) ∧
       (∀ x ∈ stack, x ∉ V0) ∧ (∀ x ∈ comp, x ∉ V0) ∧ V0 ⊆ visited) →
      ((dfsLoop adjB n stack visited comp).1.Nodup ∧
       (∀ x ∈ (dfsLoop adjB n stack visited comp).1, x ∉ V0) ∧
       (dfsLoop adjB n stack visited comp).2
         = visited ∪ (dfsLoop adjB n stack visited comp).1.toFinset ∧
       (∀ x ∈ stack, x ∈ (dfsLoop adjB n stack visited comp).1) ∧
       (∀ x ∈ comp, x ∈ (dfsLoop adjB n stack visited comp).1) ∧
       (dfsLoop adjB n stack visited comp).2 ⊆ visited ∪ Finset.range n) := by
  intro stack visited comp
  induction stack, visited, comp using dfsLoop.induct adjB n with
  | case1 visited comp =>
    rintro ⟨h1, h2, h3, h4, h5, h6, h7, h8⟩
    rw [dfsLoop]
    refine ⟨h2, h7, ?_, ?_, fun x hx => hx, ?_⟩
    · refine (Finset.union_eq_left.mpr ?_).symm
      intro x hx
      exact h5 x (List.mem_toFinset.mp hx)
    · intro x hx
      cases hx
    · exact Finset.subset_union_left
  | case2 visited comp u rest nbrs ih =>
    rintro ⟨h1, h2, h3, h4, h5, h6, h7, h8⟩
    rw [dfsLoop]
    have hu_rest : u ∉ rest := (List.nodup_cons.mp h1).1
    have hrest_nd : rest.Nodup := (List.nodup_cons.mp h1).2
    have hu_vis : u ∈ visited := h4 u (List.mem_cons_self u rest)
    have hF_nd : ((List.range n).filter (fun v => adjB u v && decide (v ∉ visited))).Nodup :=
      List.Nodup.filter _ (List.nodup_range n)
    have hF_mem : ∀ v ∈ (List.range n).filter (fun v => adjB u v && decide (v ∉ visited)),
        v ∈ Finset.range n ∧ v ∉ visited := by
      intro v hv
      simp only [List.mem_filter, List.mem_range, Bool.and_eq_true, decide_eq_true_eq] at hv
      exact ⟨Finset.mem_range.mpr hv.1, hv.2.2⟩
    set F := (List.range n).filter (fun v => adjB u v && decide (v ∉ visited)) with hF
    have n1 : (F.reverse ++ rest).Nodup := by
      rw [List.nodup_append]
      refine ⟨List.nodup_reverse.mpr hF_nd, hrest_nd, ?_⟩
      intro a ha hb
      have := (hF_mem a (List.mem_reverse.mp ha)).2
      exact this (h4 a (List.mem_cons_of_mem u hb))
    have n2 : (comp ++ [u]).Nodup := by
      rw [List.nodup_append]
      refine ⟨h2, List.nodup_singleton u, ?_⟩
      intro a ha hb
      rw [List.mem_singleton] at hb
      subst hb
      exact h3 a ha (List.mem_cons_self a rest)
    have n3 : ∀ x ∈ comp ++ [u], x ∉ F.reverse ++ rest := by
      intro x hx hmem
      have hx_vis : x ∈ visited := by
        rcases List.mem_append.mp hx with hc | hu
        · exact h5 x hc
        · rw [List.mem_singleton] at hu
          subst hu
          exact hu_vis
      rcases List.mem_append.mp hmem with hfr | hr
      · exact (hF_mem x (List.mem_reverse.mp hfr)).2 hx_vis
      · rcases List.mem_append.mp hx with hc | hu
        · exact h3 x hc (List.mem_cons_of_mem u hr)
        · rw [List.mem_singleton] at hu
          subst hu
          exact hu_rest hr
    have n4 : ∀ x ∈ F.reverse ++ rest, x ∈ visited ∪ F.toFinset := by
      intro x hx
      rcases List.mem_append.mp hx with hfr | hr
      · exact Finset.mem_union_right _ (List.mem_toFinset.mpr (List.mem_reverse.mp hfr))
      · exact Finset.mem_union_left _ (h4 x (List.mem_cons_of_mem u hr))
    have n5 : ∀ x ∈ comp ++ [u], x ∈ visited ∪ F.toFinset := by
      intro x hx
      rcases List.mem_append.mp hx with hc | hu
      · exact Finset.mem_union_left _ (h5 x hc)
      · rw [List.mem_singleton] at hu
        subst hu
        exact Finset.mem_union_left _ hu_vis
    have n6 : ∀ x ∈ F.reverse ++ rest, x ∉ V0 := by
      intro x hx
      rcases List.mem_append.mp hx with hfr | hr
      · intro hv
        exact (hF_mem x (List.mem_reverse.mp hfr)).2 (h8 hv)
      · exact h6 x (List.mem_cons_of_mem u hr)
    have n7 : ∀ x ∈ comp ++ [u], x ∉ V0 := by
      intro x hx
      rcases List.mem_append.mp hx with hc | hu
      · exact h7 x hc
      · rw [List.mem_singleton] at hu
        exact hu ▸ h6 u (List.mem_cons_self u rest)
    have n8 : V0 ⊆ visited ∪ F.toFinset := h8.trans Finset.subset_union_left
    obtain ⟨c1, c2, c3, c4, c5, c6⟩ := ih ⟨n1, n2, n3, n4, n5, n6, n7, n8⟩
    have hFsub : F.toFinset ⊆ (dfsLoop adjB n (F.reverse ++ rest) (visited ∪ F.toFinset) (comp ++ [u])).1.toFinset := by
      intro x hx
      rw [List.mem_toFinset] at hx ⊢
      exact c4 x (List.mem_append_left _ (List.mem_reverse.mpr hx))
    refine ⟨c1, c2, ?_, ?_, ?_, ?_⟩
    · rw [c3]
      ext x
      simp only [Finset.mem_union]
      constructor
      · rintro ((hv | hf) | hx)
        · exact Or.inl hv
        · exact Or.inr (hFsub hf)
        · exact Or.inr hx
      · rintro (hv | hx)
        · exact Or.inl (Or.inl hv)
        · exact Or.inr hx
    · intro x hx
      rcases List.mem_cons.mp hx with rfl | hr
      · exact c5 x (List.mem_append_right _ (List.mem_singleton_self x))
      · exact c4 x (List.mem_append_right _ hr)
    · intro x hx
      exact c5 x (List.mem_append_left _ hx)
    · intro x hx
      have := c6 hx
      rcases Finset.mem_union.mp this with hv | hr
      · rcases Finset.mem_union.mp hv with hvv | hf
        · exact Finset.mem_union_left _ hvv
        · exact Finset.mem_union_right _ (hF_mem x (List.mem_toFinset.mp hf)).1
      · exact Finset.mem_union_right _ hr

/-- Invariant of the outer loop: starting from a visited set that is
exactly the union of the accumulated components (all inside `range n`
and globally duplicate-free), the loop returns components whose
concatenation is duplicate-free, whose union is exactly the final
visited set inside `range n`, and every node of the worklist ends up
visited. -/
theorem ccLoop_spec (adjB : ℕ → ℕ → Bool) (n : ℕ) :
    ∀ (todo : List ℕ) (visited : Finset ℕ) (comps : List (List ℕ)),
      comps.flatten.Nodup →
      visited = comps.flatten.toFinset →
      visited ⊆ Finset.range n →
      (∀ i ∈ todo, i ∈ Finset.range n) →
      ((ccLoop adjB n todo visited comps).1.flatten.Nodup ∧
       (ccLoop adjB n todo visited comps).2 = (ccLoop adjB n todo visited comps).1.flatten.toFinset ∧
       (ccLoop adjB n todo visited comps).2 ⊆ Finset.range n ∧
       visited ⊆ (ccLoop adjB n todo visited comps).2 ∧
       (∀ i ∈ todo, i ∈ (ccLoop adjB n todo visited comps).2)) := by
  intro todo
  induction todo with
  | nil =>
    intro visited comps hnd hvis hsub htodo
    rw [ccLoop]
    exact ⟨hnd, hvis, hsub, Finset.Subset.refl _, by intro i hi; cases hi⟩
  | cons i rest ihtodo =>
    intro visited comps hnd hvis hsub htodo
    rw [ccLoop]
    by_cases hi : i ∈ visited
    · simp only [hi, if_true]
      obtain ⟨d1, d2, d3, d4, d5⟩ := ihtodo visited comps hnd hvis hsub
        (fun j hj => htodo j (List.mem_cons_of_mem i hj))
      refine ⟨d1, d2, d3, d4, ?_⟩
      intro j hj
      rcases List.mem_cons.mp hj with rfl | hj2
      · exact d4 hi
      · exact d5 j hj2
    · simp only [hi, if_false]
      have hspec := dfsLoop_spec adjB n visited [i] (insert i visited) [] (by
        refine ⟨List.nodup_singleton i, List.nodup_nil, ?_, ?_, ?_, ?_, ?_,
          Finset.subset_insert i visited⟩
        · intro x hx
          cases hx
        · intro x hx
          rw [List.mem_singleton] at hx
          exact hx ▸ Finset.mem_insert_self i visited
        · intro x hx
          cases hx
        · intro x hx
          rw [List.mem_singleton] at hx
          exact hx ▸ hi
        · intro x hx
          cases hx)
      obtain ⟨c1, c2, c3, c4, c5, c6⟩ := hspec
      set p := dfsLoop adjB n [i] (insert i visited) [] with hp
      have hip : i ∈ p.1 := c4 i (List.mem_singleton_self i)
      have hIrange : i ∈ Finset.range n := htodo i (List.mem_cons_self i rest)
      have i1 : (comps ++ [p.1]).flatten.Nodup := by
        rw [List.flatten_append]
        simp only [List.flatten_cons, List.flatten_nil, List.append_nil]
        rw [List.nodup_append]
        refine ⟨hnd, c1, ?_⟩
        intro a ha hb
        have hav : a ∈ visited := hvis ▸ List.mem_toFinset.mpr ha
        exact c2 a hb hav
      have i2 : p.2 = (comps ++ [p.1]).flatten.toFinset := by
        rw [c3, List.flatten_append]
        simp only [List.flatten_cons, List.flatten_nil, List.append_nil]
        rw [List.toFinset_append, ← hvis]
        ext x
        simp only [Finset.mem_union, Finset.mem_insert, List.mem_toFinset]
        constructor
        · rintro ((rfl | hv) | hx)
          · exact Or.inr hip
          · exact Or.inl hv
          · exact Or.inr hx
        · rintro (hv | hx)
          · exact Or.inl (Or.inr hv)
          · exact Or.inr hx
      have i3 : p.2 ⊆ Finset.range n := by
        intro x hx
        rcases Finset.mem_union.mp (c6 hx) with hv | hr
        · rcases Finset.mem_insert.mp hv with rfl | hvv
          · exact hIrange
          · exact hsub hvv
        · exact hr
      obtain ⟨d1, d2, d3, d4, d5⟩ := ihtodo p.2 (comps ++ [p.1]) i1 i2 i3
        (fun j hj => htodo j (List.mem_cons_of_mem i hj))
      have hvp : visited ⊆ p.2 := by
        rw [c3]
        exact (Finset.subset_insert i visited).trans Finset.subset_union_left
      refine ⟨d1, d2, d3, hvp.trans d4, ?_⟩
      intro j hj
      rcases List.mem_cons.mp hj with rfl | hj2
      · refine d4 ?_
        rw [c3]
        exact Finset.mem_union_left _ (Finset.mem_insert_self j visited)
      · exact d5 j hj2

/-- The computed components concatenate to a duplicate-free enumeration
of exactly the nodes `0 .. n-1`. -/
theorem connected_components_spec (adjB : ℕ → ℕ → Bool) (n : ℕ) :
    (connected_components_from_adj adjB n).flatten.Nodup ∧
    (connected_components_from_adj adjB n).flatten.toFinset = Finset.range n := by
  obtain ⟨c1, c2, c3, c4, c5⟩ := ccLoop_spec adjB n (List.range n) ∅ []
    List.nodup_nil (by simp) (by simp) (by intro i hi; simpa using hi)
  have heq : (ccLoop adjB n (List.range n) ∅ []).2 = Finset.range n := by
    apply Finset.Subset.antisymm c3
    intro x hx
    exact c5 x (List.mem_range.mpr (Finset.mem_range.mp hx))
  exact ⟨c1, by rw [connected_components_from_adj, ← c2, heq]⟩

/-- C5 core: the concatenation of the clusters is a permutation of the
node indices, so every node lies in exactly one cluster. -/
theorem connected_components_perm (adjB : ℕ → ℕ → Bool) (n : ℕ) :
    (connected_components_from_adj adjB n).flatten.Perm (List.range n) := by
  obtain ⟨h1, h2⟩ := connected_components_spec adjB n
  refine List.perm_of_nodup_nodup_toFinset_eq h1 (List.nodup_range n) ?_
  rw [h2]
  ext x
  simp

/-- Reading every position of a list by `getD` over its index range
reproduces the list. -/
theorem map_getD_range {α : Type} (l : List α) (d : α) :
    (List.range l.length).map (fun i => l.getD i d) = l := by
  induction l with
  | nil => rfl
  | cons a t ih =>
    rw [List.length_cons, List.range_succ_eq_map, List.map_cons, List.map_map]
    simp only [List.getD_cons_zero]
    have hcomp : ((fun i => (a :: t).getD i d) ∘ Nat.succ) = (fun i => t.getD i d) := by
      funext i
      exact List.getD_cons_succ
    rw [hcomp, ih]

/-- A label absent from the index selects nothing. -/
theorem filter_zip_not_mem (sectors : List String) (s : String) :
    ∀ (vals : List ℚ), s ∉ sectors →
      (sectors.zip vals).filter (fun p => p.1 == s) = [] := by
  induction sectors with
  | nil =>
    intro vals h
    rfl
  | cons a t ih =>
    intro vals h
    cases vals with
    | nil => rfl
    | cons v vs =>
      rw [List.zip_cons_cons, List.filter_cons]
      have ha : (a == s) = false := by
        simp only [beq_eq_false_iff_ne, ne_eq]
        intro hc
        exact h (hc ▸ List.mem_cons_self a t)
      rw [ha]
      simp only [Bool.false_eq_true, if_false]
      exact ih vs (fun hc => h (List.mem_cons_of_mem a hc))

/-- With a duplicate-free index, the pandas label selection of the
`i`-th label sums to exactly the `i`-th value. -/
theorem lookup_at_index (sectors : List String) :
    ∀ (vals : List ℚ), sectors.Nodup → vals.length = sectors.length →
      ∀ i, i < sectors.length →
        ((((sectors.zip vals).filter (fun p => p.1 == sectors.getD i "")).map Prod.snd).sum)
          = vals.getD i 0 := by
  induction sectors with
  | nil =>
    intro vals hnd hlen i hi
    cases hi
  | cons a t ih =>
    intro vals hnd hlen i hi
    cases vals with
    | nil =>
      cases hlen
    | cons v vs =>
      have hlen2 : vs.length = t.length := by
        simpa using hlen
      have hat : a ∉ t := (List.nodup_cons.mp hnd).1
      have htnd : t.Nodup := (List.nodup_cons.mp hnd).2
      cases i with
      | zero =>
        rw [List.zip_cons_cons, List.filter_cons]
        simp only [List.getD_cons_zero, beq_self_eq_true, if_true]
        rw [List.map_cons, List.sum_cons, filter_zip_not_mem t a vs hat]
        simp
      | succ j =>
        have hj : j < t.length := by
          simpa using hi
        rw [List.zip_cons_cons, List.filter_cons]
        have hget : t.getD j "" ∈ t := by
          rw [List.getD_eq_getElem t "" hj]
          exact List.getElem_mem hj
        have ha : (a == t.getD j "") = false := by
          simp only [beq_eq_false_iff_ne, ne_eq]
          intro hc
          exact hat (hc ▸ hget)
        simp only [List.getD_cons_succ, ha, Bool.false_eq_true, if_false]
        exact ih vs htnd hlen2 j hj

/-- The member-name lists of the computed clusters concatenate to a
permutation of the sector list. -/
theorem comps_names_perm (adjB : ℕ → ℕ → Bool) (sectors : List String) :
    ((connected_components_from_adj adjB sectors.length).map
      (fun c => c.map (fun i => sectors.getD i ""))).flatten.Perm sectors := by
  have hperm := connected_components_perm adjB sectors.length
  have h1 := hperm.map (fun i => sectors.getD i "")
  rw [map_getD_range sectors ""] at h1
  rw [← List.map_flatten]
  exact h1

/-- Summing the cluster weights over all computed clusters gives the
total weight of the series (with a duplicate-free index). -/
theorem comps_weight_sum (adjB : ℕ → ℕ → Bool) (sectors : List String) (nw : List ℚ)
    (hnd : sectors.Nodup) (hlen : nw.length = sectors.length) :
    ((connected_components_from_adj adjB sectors.length).map
      (fun c => compWeight sectors nw c)).sum = nw.sum := by
  have hperm := connected_components_perm adjB sectors.length
  have hflat_mem : ∀ i ∈ (connected_components_from_adj adjB sectors.length).flatten,
      i < sectors.length := by
    intro i hi
    exact List.mem_range.mp (hperm.mem_iff.mp hi)
  have hcw : ∀ c, compWeight sectors nw c
      = (c.map (fun i =>
          (((sectors.zip nw).filter (fun p => p.1 == sectors.getD i "")).map Prod.snd).sum)).sum := by
    intro c
    unfold compWeight seriesSelectSum
    rw [List.map_map]
    rfl
  rw [List.map_congr_left (fun c _ => hcw c)]
  have hfl : ((connected_components_from_adj adjB sectors.length).map
      (fun c => (c.map (fun i =>
        (((sectors.zip nw).filter (fun p => p.1 == sectors.getD i "")).map Prod.snd).sum)).sum)).sum
      = (((connected_components_from_adj adjB sectors.length).flatten).map (fun i =>
          (((sectors.zip nw).filter (fun p => p.1 == sectors.getD i "")).map Prod.snd).sum)).sum := by
    rw [List.map_flatten, List.sum_flatten, List.map_map]
    rfl
  rw [hfl]
  rw [List.map_congr_left (fun i hi => lookup_at_index sectors nw hnd hlen i (hflat_mem i hi))]
  rw [(hperm.map (fun i => nw.getD i 0)).sum_eq]
  rw [show sectors.length = nw.length from hlen.symm, map_getD_range nw 0]

/-- C5: for every valid portfolio (non-empty, distinct keys,
non-negative weights with a nonzero total) whose correlation pairs
resolve, the clusters computed by the correlation-grouping step
partition the input sectors: the node indices of the clusters
enumerate `0 .. n-1` exactly once each, the member names enumerate the
sector list exactly once each (singleton clusters included), and the
cluster weights sum to exactly 100 (hence within 1e-6 of 100). -/
theorem clusters_partition (sw : PyDict) (rp : List (ℕ × ℕ))
    (_hne : sw ≠ []) (hnd : (sw.map Prod.fst).Nodup)
    (_hnonneg : ∀ w ∈ pyValues sw, 0 ≤ w)
    (hsum : (pyValues sw).sum ≠ 0)
    (_hres : resolvePairs (sw.map Prod.fst) high_corr_pairs = Except.ok rp) :
    ((connected_components_from_adj (adjOf rp) (sw.map Prod.fst).length).flatten.Perm
      (List.range (sw.map Prod.fst).length)) ∧
    (((connected_components_from_adj (adjOf rp) (sw.map Prod.fst).length).map
      (fun c => c.map (fun i => (sw.map Prod.fst).getD i ""))).flatten.Perm (sw.map Prod.fst)) ∧
    (((connected_components_from_adj (adjOf rp) (sw.map Prod.fst).length).map
      (fun c => compWeight (sw.map Prod.fst) (normalizeWeights (pyValues sw)) c)).sum = 100) ∧
    abs ((((connected_components_from_adj (adjOf rp) (sw.map Prod.fst).length).map
      (fun c => compWeight (sw.map Prod.fst) (normalizeWeights (pyValues sw)) c)).sum) - 100)
        < 1/1000000 := by
  have hlen : (normalizeWeights (pyValues sw)).length = (sw.map Prod.fst).length := by
    simp [normalizeWeights, pyValues]
  have hnw_sum : (normalizeWeights (pyValues sw)).sum = 100 :=
    normalizeWeights_sum _ hsum
  have hs := comps_weight_sum (adjOf rp) (sw.map Prod.fst) (normalizeWeights (pyValues sw)) hnd hlen
  rw [hnw_sum] at hs
  refine ⟨connected_components_perm (adjOf rp) (sw.map Prod.fst).length,
    comps_names_perm (adjOf rp) (sw.map Prod.fst), hs, ?_⟩
  rw [hs]
  norm_num

/-- Witness for C5 at the concrete nine-sector portfolio `inp40`. -/
theorem clusters_partition_witness :
    (inp40 ≠ [] ∧ (inp40.map Prod.fst).Nodup ∧ (∀ w ∈ pyValues inp40, 0 ≤ w) ∧
      (pyValues inp40).sum ≠ 0 ∧
      resolvePairs (inp40.map Prod.fst) high_corr_pairs
        = Except.ok [(0, 1), (2, 3), (4, 5), (6, 7), (8, 1)]) ∧
    (((connected_components_from_adj (adjOf [(0, 1), (2, 3), (4, 5), (6, 7), (8, 1)])
        (inp40.map Prod.fst).length).flatten.Perm
      (List.range (inp40.map Prod.fst).length)) ∧
    (((connected_components_from_adj (adjOf [(0, 1), (2, 3), (4, 5), (6, 7), (8, 1)])
        (inp40.map Prod.fst).length).map
      (fun c => c.map (fun i => (inp40.map Prod.fst).getD i ""))).flatten.Perm (inp40.map Prod.fst)) ∧
    (((connected_components_from_adj (adjOf [(0, 1), (2, 3), (4, 5), (6, 7), (8, 1)])
        (inp40.map Prod.fst).length).map
      (fun c => compWeight (inp40.map Prod.fst) (normalizeWeights (pyValues inp40)) c)).sum = 100) ∧
    abs ((((connected_components_from_adj (adjOf [(0, 1), (2, 3), (4, 5), (6, 7), (8, 1)])
        (inp40.map Prod.fst).length).map
      (fun c => compWeight (inp40.map Prod.fst) (normalizeWeights (pyValues inp40)) c)).sum) - 100)
        < 1/1000000) :=
  ⟨⟨by decide, by decide, by decide, by rw [inp40_values]; norm_num, inp40_resolve⟩,
   clusters_partition inp40 [(0, 1), (2, 3), (4, 5), (6, 7), (8, 1)]
     (by decide) (by decide) (by decide) (by rw [inp40_values]; norm_num) inp40_resolve⟩

/-! ### IEEE binary64 model of Step 0

The exact-rational `normalizeWeights` idealises the numpy float
arithmetic.  To settle exact-equality claims against the program
itself, the following models one IEEE binary64 rounding step (round to
nearest, ties to even, 53-bit significand) exactly, as a map on
rationals, for arguments in the normal range of doubles: every float
operation of Step 0 is an exact rational operation followed by one
such rounding. -/

/-- Round a positive rational to the nearest binary64 value (ties to
even); extended to zero and negatives by symmetry.  `Int.log 2 x` is
the binade exponent, so the significand `x * 2 ^ (52 - e)` lies in
`[2^52, 2^53)` and is rounded to an integer half-to-even. -/
def floatRound (x : ℚ) : ℚ :=
  if x = 0 then 0
  else if 0 < x then
    ((roundHE (x * (2:ℚ) ^ ((52 : ℤ) - Int.log 2 x)) : ℤ) : ℚ) * (2:ℚ) ^ (Int.log 2 x - 52)
  else
    -(((roundHE ((-x) * (2:ℚ) ^ ((52 : ℤ) - Int.log 2 (-x))) : ℤ) : ℚ) * (2:ℚ) ^ (Int.log 2 (-x) - 52))

/-- One float addition. -/
def fadd (a b : ℚ) : ℚ := floatRound (a + b)

/-- One float division. -/
def fdiv (a b : ℚ) : ℚ := floatRound (a / b)

/-- One float multiplication. -/
def fmul (a b : ℚ) : ℚ := floatRound (a * b)

/-- Float sum of a weight array (sequential rounding after each
addition, as numpy computes it for two elements). -/
def fsumF (l : List ℚ) : ℚ := l.foldl fadd 0

/-- Step 0 under binary64 arithmetic: `weights / weights.sum() * 100`
elementwise is one rounded division followed by one rounded
multiplication. -/
def normalizeWeightsF (raw : List ℚ) : List ℚ :=
  raw.map (fun w => fmul (fdiv w (fsumF raw)) 100)

/-- Half-to-even rounding of a value strictly below the halfway point
returns the floor. -/
theorem roundHE_eq_of_lt_half (x : ℚ) (f : ℤ)
    (h1 : (f:ℚ) ≤ x) (h2 : x < (f:ℚ) + 1) (h3 : x - f < 1/2) :
    roundHE x = f := by
  have hf : ⌊x⌋ = f := Int.floor_eq_iff.mpr ⟨h1, h2⟩
  simp only [roundHE]
  rw [hf, if_pos h3]

/-- Half-to-even rounding of a value strictly above the halfway point
returns the floor plus one. -/
theorem roundHE_eq_of_gt_half (x : ℚ) (f : ℤ)
    (h1 : (f:ℚ) ≤ x) (h2 : x < (f:ℚ) + 1) (h3 : 1/2 < x - f) :
    roundHE x = f + 1 := by
  have hf : ⌊x⌋ = f := Int.floor_eq_iff.mpr ⟨h1, h2⟩
  simp only [roundHE]
  rw [hf, if_neg (not_lt.mpr h3.le), if_pos h3]

/-- Half-to-even rounding fixes integers. -/
theorem roundHE_intCast (m : ℤ) : roundHE (m : ℚ) = m := by
  refine roundHE_eq_of_lt_half _ m (le_refl _) (by norm_num) (by norm_num)

/-- The base-2 integer logarithm is determined by the binade bounds. -/
theorem int_log_eq (x : ℚ) (e : ℤ) (hx : 0 < x)
    (h1 : (2:ℚ) ^ e ≤ x) (h2 : x < (2:ℚ) ^ (e + 1)) :
    Int.log 2 x = e := by
  have hb : (1:ℕ) < 2 := one_lt_two
  have hA : (2:ℚ) ^ (Int.log 2 x) ≤ x := by
    have h := @Int.zpow_log_le_self ℚ _ _ 2 x hb hx
    simpa using h
  have hB : x < (2:ℚ) ^ (Int.log 2 x + 1) := by
    have h := @Int.lt_zpow_succ_log_self ℚ _ _ 2 hb x
    simpa using h
  have h3 : e < Int.log 2 x + 1 :=
    (zpow_lt_zpow_iff_right₀ (by norm_num : (1:ℚ) < 2)).mp (lt_of_le_of_lt h1 hB)
  have h4 : Int.log 2 x < e + 1 :=
    (zpow_lt_zpow_iff_right₀ (by norm_num : (1:ℚ) < 2)).mp (lt_of_le_of_lt hA h2)
  omega

/-- Evaluation rule for one rounding step at a positive argument with
known binade and known rounded significand. -/
theorem floatRound_eq (x : ℚ) (e m : ℤ) (hx : 0 < x)
    (hlog : Int.log 2 x = e)
    (hr : roundHE (x * (2:ℚ) ^ ((52 : ℤ) - e)) = m) :
    floatRound x = (m : ℚ) * (2:ℚ) ^ (e - 52) := by
  unfold floatRound
  rw [if_neg hx.ne', if_pos hx, hlog, hr]

/-- The binary64 value of the decimal literal 0.007 (one ulp above the
halfway point rounds up). -/
theorem dbl_of_007 : floatRound ((7:ℚ)/1000) = (8070450532247929 : ℚ) / 2 ^ 60 := by
  have hlog : Int.log 2 ((7:ℚ)/1000) = -8 :=
    int_log_eq _ _ (by norm_num) (by norm_num) (by norm_num)
  have hx : (7:ℚ)/1000 * (2:ℚ) ^ ((52:ℤ) - (-8)) = 8070450532247928832/1000 := by norm_num
  have hr : roundHE ((7:ℚ)/1000 * (2:ℚ) ^ ((52:ℤ) - (-8))) = 8070450532247929 := by
    rw [hx, roundHE_eq_of_gt_half _ 8070450532247928 (by norm_num) (by norm_num) (by norm_num)]
    norm_num
  rw [floatRound_eq _ (-8) 8070450532247929 (by norm_num) hlog hr]
  norm_num

/-- The binary64 value of the decimal literal 99.993. -/
theorem dbl_of_99993 : floatRound ((99993:ℚ)/1000) = (7036381836557156 : ℚ) / 2 ^ 46 := by
  have hlog : Int.log 2 ((99993:ℚ)/1000) = 6 :=
    int_log_eq _ _ (by norm_num) (by norm_num) (by norm_num)
  have hx : (99993:ℚ)/1000 * (2:ℚ) ^ ((52:ℤ) - 6) = 7036381836557156352/1000 := by norm_num
  have hr : roundHE ((99993:ℚ)/1000 * (2:ℚ) ^ ((52:ℤ) - 6)) = 7036381836557156 := by
    rw [hx]
    exact roundHE_eq_of_lt_half _ 7036381836557156 (by norm_num) (by norm_num) (by norm_num)
  rw [floatRound_eq _ 6 7036381836557156 (by norm_num) hlog hr]
  norm_num

/-- The double of 0.007 is already representable, so one rounding step
fixes it. -/
theorem floatRound_a_fix :
    floatRound ((8070450532247929 : ℚ) / 2 ^ 60) = (8070450532247929 : ℚ) / 2 ^ 60 := by
  have hlog : Int.log 2 ((8070450532247929 : ℚ) / 2 ^ 60) = -8 :=
    int_log_eq _ _ (by norm_num) (by norm_num) (by norm_num)
  have hx : (8070450532247929 : ℚ) / 2 ^ 60 * (2:ℚ) ^ ((52:ℤ) - (-8))
      = ((8070450532247929 : ℤ) : ℚ) := by norm_num
  have hr : roundHE ((8070450532247929 : ℚ) / 2 ^ 60 * (2:ℚ) ^ ((52:ℤ) - (-8)))
      = 8070450532247929 := by
    rw [hx, roundHE_intCast]
  rw [floatRound_eq _ (-8) 8070450532247929 (by norm_num) hlog hr]
  norm_num

/-- The float sum of the doubles of 0.007 and 99.993 is exactly 100. -/
theorem fsum_counterexample :
    fsumF [(8070450532247929 : ℚ) / 2 ^ 60, (7036381836557156 : ℚ) / 2 ^ 46] = 100 := by
  unfold fsumF
  simp only [List.foldl_cons, List.foldl_nil]
  have h0 : fadd 0 ((8070450532247929 : ℚ) / 2 ^ 60) = (8070450532247929 : ℚ) / 2 ^ 60 := by
    unfold fadd
    rw [zero_add, floatRound_a_fix]
  rw [h0]
  unfold fadd
  have hab : (8070450532247929 : ℚ) / 2 ^ 60 + (7036381836557156 : ℚ) / 2 ^ 46
      = 115292150460684691833 / 2 ^ 60 := by norm_num
  rw [hab]
  have hlog : Int.log 2 ((115292150460684691833 : ℚ) / 2 ^ 60) = 6 :=
    int_log_eq _ _ (by norm_num) (by norm_num) (by norm_num)
  have hx : (115292150460684691833 : ℚ) / 2 ^ 60 * (2:ℚ) ^ ((52:ℤ) - 6)
      = 115292150460684691833 / 16384 := by norm_num
  have hr : roundHE ((115292150460684691833 : ℚ) / 2 ^ 60 * (2:ℚ) ^ ((52:ℤ) - 6))
      = 7036874417766400 := by
    rw [hx, roundHE_eq_of_gt_half _ 7036874417766399 (by norm_num) (by norm_num) (by norm_num)]
    norm_num
  rw [floatRound_eq _ 6 7036874417766400 (by norm_num) hlog hr]
  norm_num

/-- Dividing the double of 0.007 by 100 rounds up by one ulp. -/
theorem fdiv_a :
    fdiv ((8070450532247929 : ℚ) / 2 ^ 60) 100 = (5165088340638675 : ℚ) / 2 ^ 66 := by
  unfold fdiv
  have hlog : Int.log 2 ((8070450532247929 : ℚ) / 2 ^ 60 / 100) = -14 :=
    int_log_eq _ _ (by norm_num) (by norm_num) (by norm_num)
  have hx : (8070450532247929 : ℚ) / 2 ^ 60 / 100 * (2:ℚ) ^ ((52:ℤ) - (-14))
      = 516508834063867456 / 100 := by norm_num
  have hr : roundHE ((8070450532247929 : ℚ) / 2 ^ 60 / 100 * (2:ℚ) ^ ((52:ℤ) - (-14)))
      = 5165088340638675 := by
    rw [hx, roundHE_eq_of_gt_half _ 5165088340638674 (by norm_num) (by norm_num) (by norm_num)]
    norm_num
  rw [floatRound_eq _ (-14) 5165088340638675 (by norm_num) hlog hr]
  norm_num

/-- Multiplying the rounded quotient back by 100 lands one ulp above
the double of 0.007: the round trip is not the identity. -/
theorem fmul_roundtrip :
    fmul ((5165088340638675 : ℚ) / 2 ^ 66) 100 = (8070450532247930 : ℚ) / 2 ^ 60 := by
  unfold fmul
  have hlog : Int.log 2 ((5165088340638675 : ℚ) / 2 ^ 66 * 100) = -8 :=
    int_log_eq _ _ (by norm_num) (by norm_num) (by norm_num)
  have hx : (5165088340638675 : ℚ) / 2 ^ 66 * 100 * (2:ℚ) ^ ((52:ℤ) - (-8))
      = 129127208515966875 / 16 := by norm_num
  have hr : roundHE ((5165088340638675 : ℚ) / 2 ^ 66 * 100 * (2:ℚ) ^ ((52:ℤ) - (-8)))
      = 8070450532247930 := by
    rw [hx, roundHE_eq_of_gt_half _ 8070450532247929 (by norm_num) (by norm_num) (by norm_num)]
    norm_num
  rw [floatRound_eq _ (-8) 8070450532247930 (by norm_num) hlog hr]
  norm_num

/-- C8 counterexample: under the IEEE binary64 arithmetic the program
actually performs, Step 0 is not the identity on an input series whose
float sum is exactly 100: the doubles of 0.007 and 99.993 sum to
exactly 100, yet the normalized series returns the first entry one ulp
higher than the input (0.007/100*100 rounds up twice). -/
theorem normalization_fixed_point_counterexample :
    floatRound (7/1000) = (8070450532247929 : ℚ) / 2 ^ 60 ∧
    floatRound (99993/1000) = (7036381836557156 : ℚ) / 2 ^ 46 ∧
    fsumF [(8070450532247929 : ℚ) / 2 ^ 60, (7036381836557156 : ℚ) / 2 ^ 46] = 100 ∧
    normalizeWeightsF [(8070450532247929 : ℚ) / 2 ^ 60, (7036381836557156 : ℚ) / 2 ^ 46]
      ≠ [(8070450532247929 : ℚ) / 2 ^ 60, (7036381836557156 : ℚ) / 2 ^ 46] := by
  refine ⟨dbl_of_007, dbl_of_99993, fsum_counterexample, ?_⟩
  intro hcontra
  unfold normalizeWeightsF at hcontra
  simp only [List.map_cons, List.map_nil] at hcontra
  rw [fsum_counterexample] at hcontra
  rw [fdiv_a, fmul_roundtrip] at hcontra
  injection hcontra with h1 h2
  norm_num at h1
